import Mathlib

/-!
Shallow embedding of the PasswordVault repository (src/cryptoUtils.js,
src/database.js, src/passwordGenerator.js, src/app.js).

Modelling conventions:
* JS strings that carry binary data (plaintext passwords, key/IV material)
  are modelled as `List Nat` with every element `< 256` (byte sequences);
  hex-encoded strings are modelled as `List Char`.
* Node's `crypto` module is an external collaborator.  The AES-256 block
  primitive (already keyed with the fixed process key) is abstracted as a
  `BlockCipher`: a pair of byte-block transformations where decryption
  inverts encryption on well-formed 16-byte blocks.  CBC chaining, PKCS#7
  padding, hex encoding/decoding and all of database.js are modelled
  concretely, following the source.
* Sources of randomness (`crypto.randomBytes` for the IV,
  `crypto.randomInt` for password generation) are passed in explicitly.
* `async` functions returning `Promise<void>` are modelled as returning a
  structure whose `ret : Unit` field is the resolved value, alongside the
  new store state and the console-log trace.
-/

namespace PasswordVault

/-! ### Hex encoding (Node Buffer 'hex' semantics) -/

/-- One lowercase hexadecimal digit character, as produced by
`Buffer.prototype.toString('hex')` (0-9 then a-f). -/
def hexDigitChar (n : Nat) : Char :=
  if n < 10 then Char.ofNat (48 + n) else Char.ofNat (87 + n)

/-- Hex-encode a byte sequence to lowercase hex characters
(`buffer.toString('hex')`). -/
def hexEncode : List Nat → List Char
  | [] => []
  | b :: bs => hexDigitChar (b / 16) :: hexDigitChar (b % 16) :: hexEncode bs

/-- Value of one hex digit character, accepting both cases
(as `Buffer.from(s, 'hex')` does); `none` on a non-hex character. -/
def hexCharVal (c : Char) : Option Nat :=
  if 48 ≤ c.toNat ∧ c.toNat ≤ 57 then some (c.toNat - 48)
  else if 97 ≤ c.toNat ∧ c.toNat ≤ 102 then some (c.toNat - 87)
  else if 65 ≤ c.toNat ∧ c.toNat ≤ 70 then some (c.toNat - 55)
  else none

/-- Lenient hex decoding with Node `Buffer.from(s, 'hex')` semantics:
decode pairs of hex digits, and stop (truncating the result) at the first
invalid pair or at a lone trailing digit.  Total: never fails. -/
def hexDecode : List Char → List Nat
  | c1 :: c2 :: rest =>
    match hexCharVal c1, hexCharVal c2 with
    | some hi, some lo => (16 * hi + lo) :: hexDecode rest
    | _, _ => []
  | _ => []

/-! ### Abstract block primitive and CBC chaining -/

/-- Pointwise XOR of two byte sequences (CBC chaining step). -/
def xorBytes (a b : List Nat) : List Nat := List.zipWith (· ^^^ ·) a b

/-- The external AES-256 block primitive of Node's `crypto` module, already
keyed with the fixed process key
(`sha256('your-secure-password-key')`, src/cryptoUtils.js line 9).
`enc`/`dec` map one 16-byte block; `dec` inverts `enc` on well-formed
blocks, and both preserve block shape. -/
structure BlockCipher where
  enc : List Nat → List Nat
  dec : List Nat → List Nat
  enc_len : ∀ b : List Nat, b.length = 16 → (enc b).length = 16
  enc_lt : ∀ b : List Nat, ∀ x ∈ enc b, x < 256
  dec_len : ∀ b : List Nat, b.length = 16 → (dec b).length = 16
  dec_enc : ∀ b : List Nat, b.length = 16 → (∀ x ∈ b, x < 256) → dec (enc b) = b

/-- Split a byte sequence into 16-byte blocks (fuel-driven so that the
recursion is structural; `fuel` bounds the number of blocks). -/
def chunksAux : Nat → List Nat → List (List Nat)
  | 0, _ => []
  | _, [] => []
  | fuel + 1, l => l.take 16 :: chunksAux fuel (l.drop 16)

/-- Split a byte sequence into its 16-byte cipher blocks. -/
def chunks (l : List Nat) : List (List Nat) := chunksAux l.length l

/-- CBC encryption over a list of plaintext blocks: each block is XORed
with the previous ciphertext block (initially the IV) and then put through
the block primitive. -/
def cbcEncBlocks (E : List Nat → List Nat) (prev : List Nat) :
    List (List Nat) → List (List Nat)
  | [] => []
  | b :: bs =>
    let c := E (xorBytes b prev)
    c :: cbcEncBlocks E c bs

/-- CBC decryption over a list of ciphertext blocks: each block is put
through the inverse primitive and XORed with the previous ciphertext block
(initially the IV). -/
def cbcDecBlocks (D : List Nat → List Nat) (prev : List Nat) :
    List (List Nat) → List (List Nat)
  | [] => []
  | c :: cs => xorBytes (D c) prev :: cbcDecBlocks D c cs

/-- CBC-encrypt a (padded) byte sequence under the given IV. -/
def cbcEncrypt (bc : BlockCipher) (iv p : List Nat) : List Nat :=
  (cbcEncBlocks bc.enc iv (chunks p)).flatten

/-- CBC-decrypt a byte sequence under the given IV. -/
def cbcDecrypt (bc : BlockCipher) (iv ct : List Nat) : List Nat :=
  (cbcDecBlocks bc.dec iv (chunks ct)).flatten

/-! ### PKCS#7 padding (OpenSSL standard block padding) -/

/-- Number of padding bytes appended to a plaintext of length `n`:
always between 1 and 16. -/
def padLen (n : Nat) : Nat := 16 - n % 16

/-- PKCS#7 padding: append `k` copies of the byte `k`. -/
def pad (p : List Nat) : List Nat :=
  p ++ List.replicate (padLen p.length) (padLen p.length)

/-- PKCS#7 unpadding as checked by OpenSSL at `decipher.final()`:
read the last byte `k`; require `1 ≤ k ≤ 16` and that the last `k` bytes
all equal `k`; strip them.  `none` models the thrown `bad decrypt`. -/
def unpad (p : List Nat) : Option (List Nat) :=
  let k := (p.getLast?).getD 0
  if 1 ≤ k ∧ k ≤ 16 ∧ k ≤ p.length ∧
      p.drop (p.length - k) = List.replicate k k then
    some (p.take (p.length - k))
  else none

/-! ### cryptoUtils.js -/

/-- The `{ encryptedPassword, iv }` object returned by `encryptPassword`
(both fields hex strings). -/
structure Encrypted where
  encryptedPassword : List Char
  iv : List Char
deriving DecidableEq, Repr

/-- `encryptPassword` (src/cryptoUtils.js lines 16-24): AES-256-CBC with a
fresh random 16-byte IV.  The random bytes produced by
`crypto.randomBytes(16)` are passed in as `ivBytes`. -/
def encryptPassword (bc : BlockCipher) (ivBytes password : List Nat) : Encrypted :=
  { encryptedPassword := hexEncode (cbcEncrypt bc ivBytes (pad password))
    iv := hexEncode ivBytes }

/-- `decryptPassword` (src/cryptoUtils.js lines 32-42).  The whole body is
wrapped in `try/catch` returning `null` on any failure, modelled as
`Option`: `createDecipheriv` throws when the decoded IV is not 16 bytes;
`final()` throws when the ciphertext is empty or not a whole number of
blocks, or when the padding is malformed after decryption. -/
def decryptPassword (bc : BlockCipher) (encryptedPassword iv : List Char) :
    Option (List Nat) :=
  let ivB := hexDecode iv
  if ivB.length ≠ 16 then none
  else
    let ct := hexDecode encryptedPassword
    if ct.length = 0 ∨ ct.length % 16 ≠ 0 then none
    else unpad (cbcDecrypt bc ivB ct)

/-- Flip every bit of the first byte of a byte sequence (a single-byte
tamper on a ciphertext). -/
def flipFirstByte : List Nat → List Nat
  | [] => []
  | x :: xs => (x ^^^ 255) :: xs

/-! ### passwordGenerator.js -/

/-- The fixed alphabet `chars` of `generatePassword`
(src/passwordGenerator.js line 13): 26 lowercase, 26 uppercase, 10 digits
and the 14 symbols. -/
def passwordChars : List Char :=
  "abcdefghijklmnopqrstuvwxyzABCDEFGHIJKLMNOPQRSTUVWXYZ0123456789!@#$%^&*()-_=+".toList

/-- `generatePassword` (src/passwordGenerator.js lines 12-20): `length`
characters drawn from `passwordChars` at indices supplied by
`crypto.randomInt(0, chars.length)`, modelled by the stream
`rng : Nat → Fin 76`.  Returned as the byte (UTF-8 code) sequence of the
generated string — every alphabet character is single-byte ASCII. -/
def generatePassword (rng : Nat → Fin 76) (length : Nat := 12) : List Nat :=
  (List.range length).map fun i => (passwordChars.getD (rng i) ' ').toNat

/-! ### database.js -/

/-- One document of the `Password` Mongo collection
(src/database.js schema, lines 17-23). -/
structure Record where
  service : String
  username : String
  user : String
  encryptedPassword : List Char
  iv : List Char
deriving DecidableEq, Repr

/-- Console output of the database operations, one constructor per
`console.log` call site in src/database.js. -/
inductive LogEntry where
  | generated (pw : List Nat)
  | updated (service username : String)
  | saved (service username : String)
  | retrieved (service : String) (pw : Option (List Nat))
  | notFound
  | deleted (service : String)
deriving DecidableEq, Repr

/-- The Mongo filter `{ service, username, user }` used by `findOne` /
`findOneAndDelete`: exact match on the identity key. -/
def matchKey (service username user : String) (r : Record) : Bool :=
  r.service == service && r.username == username && r.user == user

/-- Update the first record satisfying `p` (mongoose: mutate the document
returned by `findOne`, then `save()`). -/
def updateFirst (p : Record → Bool) (f : Record → Record) :
    List Record → List Record
  | [] => []
  | r :: rs => if p r then f r :: rs else r :: updateFirst p f rs

/-- Number of records stored under one identity key. -/
def keyCount (service username user : String) (store : List Record) : Nat :=
  (store.filter (matchKey service username user)).length

/-- Result of `storePassword`: new collection state, console output, and
the value the `async` function resolves with — `undefined`
(`@returns {Promise<void>}`), modelled as `Unit`. -/
structure StoreOutcome where
  newStore : List Record
  logs : List LogEntry
  ret : Unit
deriving DecidableEq, Repr

/-- The JS truthiness test `if (!password)` of src/database.js line 64:
true for `null` (modelled `none`) and for the empty string. -/
def isFalsy (password : Option (List Nat)) : Bool :=
  match password with
  | none => true
  | some p => p.isEmpty

/-- The secret actually sealed and stored by `storePassword`: the
caller's secret when truthy, a freshly generated 12-character one
otherwise (the reassignment `password = generatePassword()`). -/
def effPassword (rng : Nat → Fin 76) (password : Option (List Nat)) : List Nat :=
  if isFalsy password then generatePassword rng 12 else password.getD []

/-- `storePassword` (src/database.js lines 62-85).  `password = null` by
default; the guard `if (!password)` is JS truthiness, so both `null` and
the empty string trigger generation.  `rng` feeds `generatePassword`,
`ivBytes` feeds `encryptPassword`.  `findOne` then update-in-place or
insert. -/
def storePassword (bc : BlockCipher) (rng : Nat → Fin 76) (ivBytes : List Nat)
    (service username : String) (password : Option (List Nat)) (user : String)
    (store : List Record) : StoreOutcome :=
  let pw := effPassword rng password
  let genLog : List LogEntry := if isFalsy password then [.generated pw] else []
  let e := encryptPassword bc ivBytes pw
  match store.find? (matchKey service username user) with
  | some _ =>
    { newStore := updateFirst (matchKey service username user)
        (fun r => { r with encryptedPassword := e.encryptedPassword, iv := e.iv })
        store
      logs := genLog ++ [.updated service username]
      ret := () }
  | none =>
    let newRec : Record :=
      { service := service
        username := username
        user := user
        encryptedPassword := e.encryptedPassword
        iv := e.iv }
    { newStore := store ++ [newRec]
      logs := genLog ++ [.saved service username]
      ret := () }

/-- `retrievePassword` (src/database.js lines 88-102): `findOne`; `null`
with a "No password found" log when absent; otherwise the result of
`decryptPassword` (which is itself `null` when decryption fails), logged
and returned.  Reads only: the store is not modified. -/
def retrievePassword (bc : BlockCipher) (service username user : String)
    (store : List Record) : Option (List Nat) × LogEntry :=
  match store.find? (matchKey service username user) with
  | none => (none, .notFound)
  | some entry =>
    let d := decryptPassword bc entry.encryptedPassword entry.iv
    (d, .retrieved service d)

/-- Result of `deletePassword`: new collection state, console output, and
the resolved value — again `undefined` (`@returns {Promise<void>}`). -/
structure DeleteOutcome where
  newStore : List Record
  log : LogEntry
  ret : Unit
deriving DecidableEq, Repr

/-- `deletePassword` (src/database.js lines 105-112): `findOneAndDelete`
removes the first record under the identity key if any; the outcome is
only reported on the console. -/
def deletePassword (service username user : String) (store : List Record) :
    DeleteOutcome :=
  match store.find? (matchKey service username user) with
  | some _ =>
    { newStore := store.eraseP (matchKey service username user)
      log := .deleted service
      ret := () }
  | none => { newStore := store, log := .notFound, ret := () }

/-! ### User authentication (users.json flat file) -/

/-- One entry of users.json: `{ username, password }` where `password` is
the stored SHA-256 hex hash. -/
structure UserEntry where
  username : String
  password : String
deriving DecidableEq, Repr

/-- A JavaScript value that is either `undefined` or a boolean — the
possible results of `authUser`. -/
inductive JsReturn where
  | undef
  | bool (b : Bool)
deriving DecidableEq, Repr

/-- `authUser` (src/database.js lines 55-59):
`user && user.password === hashPassword(password)`.
`hash` abstracts `hashPassword` (SHA-256 hex digest, line 31, external
crypto).  When `find` misses, the JS expression evaluates to `undefined`,
not `false`. -/
def authUser (hash : String → String) (users : List UserEntry)
    (username password : String) : JsReturn :=
  match users.find? (fun u => u.username == username) with
  | none => .undef
  | some u => .bool (u.password == hash password)

/-! ### A concrete block primitive for witnesses

`xorNotCipher` instantiates the abstract block primitive with byte-wise
complement, which satisfies the `BlockCipher` contract and lets witnesses
and counterexamples be evaluated by `decide`. -/

/-- Byte-wise complement as a (toy) instance of the block-primitive
contract, used to evaluate the model on concrete inputs. -/
def xorNotCipher : BlockCipher where
  enc := List.map (fun x => 255 - x)
  dec := List.map (fun x => 255 - x)
  enc_len := by intro b hb; simpa using hb
  enc_lt := by
    intro b x hx
    simp only [List.mem_map] at hx
    obtain ⟨y, _, rfl⟩ := hx
    omega
  dec_len := by intro b hb; simpa using hb
  dec_enc := by
    intro b hb hlt
    rw [List.map_map]
    have : ∀ x ∈ b, (255 - (255 - x)) = x := by
      intro x hx
      have := hlt x hx
      omega
    calc List.map ((fun x => 255 - x) ∘ fun x => 255 - x) b
        = List.map id b := List.map_congr_left (by intro a ha; simp [this a ha])
      _ = b := List.map_id b

/-- Concrete IV bytes for witnesses (`crypto.randomBytes(16)` output). -/
def ivW : List Nat := List.replicate 16 7

/-- Concrete random-index stream for witnesses
(`crypto.randomInt(0, 76)` outputs). -/
def rngW : Nat → Fin 76 := fun i => ⟨(5 * i + 3) % 76, Nat.mod_lt _ (by omega)⟩

/-- Concrete identity-key parts for witnesses. -/
def svcW : String := "Gmail"

def acctW : String := "a@x.com"

def ownerW : String := "alice"

/-- A stored record whose envelope is unreadable (empty hex strings, so
`createDecipheriv` rejects the IV): decryption of it fails. -/
def badRecW : Record :=
  { service := svcW
    username := acctW
    user := ownerW
    encryptedPassword := []
    iv := [] }

/-- A users.json entry for witnesses; `password` holds the stored hash
(the witness hash function is the identity, so it is the plaintext). -/
def userJ : UserEntry :=
  { username := "john"
    password := "hunter2" }

/-! ## Helper lemmas -/

/-- hex digit/value inverse, on `Fin 16` so it can be decided. -/
lemma hexCharVal_hexDigitChar_fin : ∀ n : Fin 16, hexCharVal (hexDigitChar n) = some n := by
decide

lemma hexCharVal_hexDigitChar {n : Nat} (h : n < 16) :
    hexCharVal (hexDigitChar n) = some n :=
hexCharVal_hexDigitChar_fin ⟨n, h⟩

/-- Hex decoding inverts hex encoding on byte sequences. -/
lemma hexDecode_hexEncode : ∀ bs : List Nat, (∀ x ∈ bs, x < 256) →
    hexDecode (hexEncode bs) = bs := by
intro bs
induction bs with
| nil => intro _; rfl
| cons b bs ih =>
  intro h
  have hb : b < 256 := h b (by simp)
  have h1 : b / 16 < 16 := by omega
  have h2 : b % 16 < 16 := by omega
  rw [hexEncode, hexDecode, hexCharVal_hexDigitChar h1, hexCharVal_hexDigitChar h2]
  simp only []
  rw [ih (fun x hx => h x (by simp [hx]))]
  congr 1
  omega

/-- Length of a hex encoding. -/
lemma hexEncode_length : ∀ bs : List Nat, (hexEncode bs).length = 2 * bs.length := by
intro bs
induction bs with
| nil => rfl
| cons b bs ih => rw [hexEncode]; simp [ih]; omega

/-- xorBytes length. -/
lemma xorBytes_length (a b : List Nat) :
    (xorBytes a b).length = min a.length b.length := by
simp [xorBytes]

/-- XORing twice with the same chain block is the identity. -/
lemma xorBytes_xorBytes_cancel : ∀ (a b : List Nat), a.length ≤ b.length →
    xorBytes (xorBytes a b) b = a := by
intro a
induction a with
| nil => intro b _; cases b <;> rfl
| cons x xs ih =>
  intro b hb
  cases b with
  | nil => simp at hb
  | cons y ys =>
    simp only [List.length_cons] at hb
    simp only [xorBytes, List.zipWith_cons_cons] at *
    rw [Nat.xor_cancel_right, ih ys (by omega)]

/-- XOR of byte sequences stays in byte range. -/
lemma xorBytes_lt : ∀ (a b : List Nat), (∀ x ∈ a, x < 256) → (∀ x ∈ b, x < 256) →
    ∀ x ∈ xorBytes a b, x < 256 := by
intro a
induction a with
| nil => intro b _ _ x hx; simp [xorBytes] at hx
| cons y ys ih =>
  intro b ha hb x hx
  cases b with
  | nil => simp [xorBytes] at hx
  | cons z zs =>
    simp only [xorBytes, List.zipWith_cons_cons, List.mem_cons] at hx
    rcases hx with h | h
    · subst h
      have h1 : y < 256 := ha y (by simp)
      have h2 : z < 256 := hb z (by simp)
      have : (256 : Nat) = 2 ^ 8 := by norm_num
      rw [this] at h1 h2 ⊢
      exact Nat.xor_lt_two_pow h1 h2
    · exact ih zs (fun u hu => ha u (by simp [hu])) (fun u hu => hb u (by simp [hu])) x h

/-- chunksAux on the empty list. -/
lemma chunksAux_nil (fuel : Nat) : chunksAux fuel [] = [] := by
cases fuel <;> rfl

/-- chunksAux unfolding on a nonempty list with positive fuel. -/
lemma chunksAux_cons (fuel : Nat) (x : Nat) (xs : List Nat) :
    chunksAux (fuel + 1) (x :: xs) =
      (x :: xs).take 16 :: chunksAux fuel ((x :: xs).drop 16) := rfl

/-- Flattening the chunks of a list (when the fuel covers it) gives the
list back. -/
lemma chunksAux_flatten : ∀ fuel (l : List Nat), l.length ≤ fuel →
    (chunksAux fuel l).flatten = l := by
intro fuel
induction fuel with
| zero =>
  intro l hl
  have : l = [] := by
    cases l with
    | nil => rfl
    | cons x xs => simp at hl
  subst this; rfl
| succ n ih =>
  intro l hl
  cases l with
  | nil => rw [chunksAux_nil]; rfl
  | cons x xs =>
    rw [chunksAux_cons, List.flatten_cons]
    rw [ih ((x :: xs).drop 16) (by simp [List.length_drop] at *; omega)]
    exact List.take_append_drop 16 (x :: xs)

lemma chunks_flatten (l : List Nat) : (chunks l).flatten = l :=
chunksAux_flatten l.length l le_rfl

/-- Every chunk of a block-aligned list has length 16. -/
lemma chunksAux_length16 : ∀ fuel (l : List Nat), l.length % 16 = 0 →
    ∀ b ∈ chunksAux fuel l, b.length = 16 := by
intro fuel
induction fuel with
| zero => intro l _ b hb; simp [chunksAux] at hb
| succ n ih =>
  intro l hl b hb
  cases l with
  | nil => rw [chunksAux_nil] at hb; simp at hb
  | cons x xs =>
    rw [chunksAux_cons] at hb
    rcases List.mem_cons.mp hb with h | h
    · subst h
      have : (x :: xs).length % 16 = 0 := hl
      simp only [List.length_cons] at this
      simp [List.length_take]
      omega
    · refine ih _ ?_ b h
      have h1 : (x :: xs).length % 16 = 0 := hl
      simp only [List.length_cons] at h1
      simp only [List.length_drop, List.length_cons]
      omega

/-- Every byte of a chunk comes from the original list. -/
lemma chunksAux_subset : ∀ fuel (l : List Nat), ∀ b ∈ chunksAux fuel l,
    ∀ x ∈ b, x ∈ l := by
intro fuel
induction fuel with
| zero => intro l b hb; simp [chunksAux] at hb
| succ n ih =>
  intro l b hb x hx
  cases l with
  | nil => rw [chunksAux_nil] at hb; simp at hb
  | cons y ys =>
    rw [chunksAux_cons] at hb
    rcases List.mem_cons.mp hb with h | h
    · subst h; exact List.take_subset 16 (y :: ys) hx
    · exact List.drop_subset 16 (y :: ys) (ih _ b h x hx)

/-- Flattened length of a list of 16-byte blocks. -/
lemma flatten_blocks_length : ∀ bs : List (List Nat),
    (∀ b ∈ bs, b.length = 16) → bs.flatten.length = 16 * bs.length := by
intro bs
induction bs with
| nil => intro _; rfl
| cons b rest ih =>
  intro h
  rw [List.flatten_cons]
  simp only [List.length_append, List.length_cons]
  rw [h b (by simp), ih (fun c hc => h c (by simp [hc]))]
  ring

/-- Chunking the flattening of a list of 16-byte blocks recovers the
blocks (fuel version). -/
lemma chunksAux_flatten_blocks : ∀ (bs : List (List Nat)) fuel,
    (∀ b ∈ bs, b.length = 16) → bs.length ≤ fuel →
    chunksAux fuel bs.flatten = bs := by
intro bs
induction bs with
| nil => intro fuel _ _; rw [List.flatten_nil, chunksAux_nil]
| cons b rest ih =>
  intro fuel h hfuel
  have hb : b.length = 16 := h b (by simp)
  have hbne : b ≠ [] := by intro hc; rw [hc] at hb; simp at hb
  obtain ⟨y, ys, hy⟩ := List.exists_cons_of_ne_nil hbne
  cases fuel with
  | zero => simp at hfuel
  | succ n =>
    rw [List.flatten_cons]
    have hcons : b ++ rest.flatten = y :: (ys ++ rest.flatten) := by rw [hy]; rfl
    rw [hcons, chunksAux_cons, ← hcons]
    have ht : (b ++ rest.flatten).take 16 = b := by
      rw [← hb, List.take_append_of_le_length le_rfl, List.take_length]
    have hd : (b ++ rest.flatten).drop 16 = rest.flatten := by
      rw [← hb]
      have h0 := @List.drop_append _ b rest.flatten 0
      simp only [Nat.add_zero, List.drop_zero] at h0
      exact h0
    rw [ht, hd, ih n (fun c hc => h c (by simp [hc])) (by simp at hfuel; omega)]

/-- Chunking the flattening of a nonempty list of 16-byte blocks recovers
the blocks. -/
lemma chunks_flatten_blocks (bs : List (List Nat))
    (h : ∀ b ∈ bs, b.length = 16) : chunks bs.flatten = bs := by
apply chunksAux_flatten_blocks bs _ h
rw [flatten_blocks_length bs h]
omega

/-- Ciphertext blocks of CBC encryption all have length 16. -/
lemma cbcEncBlocks_length16 (bc : BlockCipher) : ∀ (bs : List (List Nat)) (prev : List Nat),
    prev.length = 16 → (∀ b ∈ bs, b.length = 16) →
    ∀ c ∈ cbcEncBlocks bc.enc prev bs, c.length = 16 := by
intro bs
induction bs with
| nil => intro prev _ _ c hc; simp [cbcEncBlocks] at hc
| cons b rest ih =>
  intro prev hprev hbs c hc
  have hb : b.length = 16 := hbs b (by simp)
  have hxlen : (xorBytes b prev).length = 16 := by
    rw [xorBytes_length, hb, hprev]; exact Nat.min_self 16
  have hclen : (bc.enc (xorBytes b prev)).length = 16 := bc.enc_len _ hxlen
  simp only [cbcEncBlocks, List.mem_cons] at hc
  rcases hc with h | h
  · subst h; exact hclen
  · exact ih _ hclen (fun d hd => hbs d (by simp [hd])) c h

/-- Ciphertext bytes of CBC encryption are in byte range. -/
lemma cbcEncBlocks_lt (bc : BlockCipher) : ∀ (bs : List (List Nat)) (prev : List Nat),
    ∀ c ∈ cbcEncBlocks bc.enc prev bs, ∀ x ∈ c, x < 256 := by
intro bs
induction bs with
| nil => intro prev c hc; simp [cbcEncBlocks] at hc
| cons b rest ih =>
  intro prev c hc
  simp only [cbcEncBlocks, List.mem_cons] at hc
  rcases hc with h | h
  · subst h; exact bc.enc_lt _
  · exact ih _ c h

/-- CBC block decryption inverts CBC block encryption. -/
lemma cbcDecBlocks_encBlocks (bc : BlockCipher) : ∀ (bs : List (List Nat)) (prev : List Nat),
    prev.length = 16 → (∀ x ∈ prev, x < 256) →
    (∀ b ∈ bs, b.length = 16 ∧ ∀ x ∈ b, x < 256) →
    cbcDecBlocks bc.dec prev (cbcEncBlocks bc.enc prev bs) = bs := by
intro bs
induction bs with
| nil => intro prev _ _ _; rfl
| cons b rest ih =>
  intro prev hprev hprevlt hbs
  obtain ⟨hb, hblt⟩ := hbs b (by simp)
  have hxlen : (xorBytes b prev).length = 16 := by
    rw [xorBytes_length, hb, hprev]; exact Nat.min_self 16
  have hxlt : ∀ x ∈ xorBytes b prev, x < 256 := xorBytes_lt b prev hblt hprevlt
  have hdec : bc.dec (bc.enc (xorBytes b prev)) = xorBytes b prev :=
    bc.dec_enc _ hxlen hxlt
  simp only [cbcEncBlocks, cbcDecBlocks]
  rw [hdec, xorBytes_xorBytes_cancel b prev (by omega)]
  rw [ih _ (bc.enc_len _ hxlen) (bc.enc_lt _) (fun d hd => hbs d (by simp [hd]))]

/-- CBC encryption preserves length on block-aligned input. -/
lemma cbcEncrypt_length (bc : BlockCipher) (prev p : List Nat)
    (hprev : prev.length = 16) (hp : p.length % 16 = 0) :
    (cbcEncrypt bc prev p).length = p.length := by
have hch : ∀ b ∈ chunks p, b.length = 16 := chunksAux_length16 _ _ hp
have h1 : (cbcEncrypt bc prev p).length = 16 * (cbcEncBlocks bc.enc prev (chunks p)).length := by
  rw [cbcEncrypt]
  exact flatten_blocks_length _ (cbcEncBlocks_length16 bc _ _ hprev hch)
have h2 : (cbcEncBlocks bc.enc prev (chunks p)).length = (chunks p).length := by
  clear h1 hch
  generalize prev = q
  induction chunks p generalizing q with
  | nil => rfl
  | cons b rest ih => simp [cbcEncBlocks, ih]
have h3 : p.length = 16 * (chunks p).length := by
  conv_lhs => rw [← chunks_flatten p]
  exact flatten_blocks_length _ hch
omega

/-- CBC encryption output bytes are in range. -/
lemma cbcEncrypt_lt (bc : BlockCipher) (prev p : List Nat) :
    ∀ x ∈ cbcEncrypt bc prev p, x < 256 := by
intro x hx
rw [cbcEncrypt, List.mem_flatten] at hx
obtain ⟨c, hc, hxc⟩ := hx
exact cbcEncBlocks_lt bc _ _ c hc x hxc

/-- CBC decryption inverts CBC encryption (byte level). -/
lemma cbcDecrypt_cbcEncrypt (bc : BlockCipher) (iv p : List Nat)
    (hiv : iv.length = 16) (hivlt : ∀ x ∈ iv, x < 256)
    (hp : p.length % 16 = 0) (hplt : ∀ x ∈ p, x < 256) :
    cbcDecrypt bc iv (cbcEncrypt bc iv p) = p := by
have hch : ∀ b ∈ chunks p, b.length = 16 := chunksAux_length16 _ _ hp
have hct : chunks (cbcEncrypt bc iv p) = cbcEncBlocks bc.enc iv (chunks p) := by
  rw [cbcEncrypt]
  exact chunks_flatten_blocks _ (cbcEncBlocks_length16 bc _ _ hiv hch)
rw [cbcDecrypt, hct]
rw [cbcDecBlocks_encBlocks bc _ _ hiv hivlt (fun b hb =>
  ⟨hch b hb, fun x hx => hplt x (chunksAux_subset _ _ b hb x hx)⟩)]
exact chunks_flatten p

/-! ### Padding lemmas -/

lemma padLen_pos (n : Nat) : 1 ≤ padLen n := by
unfold padLen; omega

lemma padLen_le (n : Nat) : padLen n ≤ 16 := by
unfold padLen; omega

lemma pad_length (p : List Nat) : (pad p).length = p.length + padLen p.length := by
simp [pad]

lemma pad_mod (p : List Nat) : (pad p).length % 16 = 0 := by
rw [pad_length]; unfold padLen; omega

lemma pad_lt (p : List Nat) (hp : ∀ x ∈ p, x < 256) : ∀ x ∈ pad p, x < 256 := by
intro x hx
rcases List.mem_append.mp hx with h | h
· exact hp x h
· obtain ⟨_, rfl⟩ := (List.mem_replicate).mp h
  have := padLen_le p.length
  omega

/-- Unpadding inverts padding. -/
lemma unpad_pad (p : List Nat) : unpad (pad p) = some p := by
set k := padLen p.length with hk
have hk1 : 1 ≤ k := padLen_pos p.length
have hk16 : k ≤ 16 := padLen_le p.length
have hsplit : pad p = (p ++ List.replicate (k - 1) k) ++ [k] := by
  obtain ⟨m, hm⟩ : ∃ m, k = m + 1 := ⟨k - 1, by omega⟩
  rw [pad, ← hk, List.append_assoc, hm]
  congr 1
  simp only [Nat.add_sub_cancel]
  exact List.replicate_succ' m (m + 1)
have hlast : (pad p).getLast? = some k := by
  rw [hsplit]; exact List.getLast?_concat _
have hlen : (pad p).length = p.length + k := pad_length p
have hdrop : (pad p).drop ((pad p).length - k) = List.replicate k k := by
  rw [hlen, pad, ← hk]
  have h2 : p.length + k - k = p.length := by omega
  rw [h2, List.drop_left]
have htake : (pad p).take ((pad p).length - k) = p := by
  rw [hlen, pad, ← hk]
  have h2 : p.length + k - k = p.length := by omega
  rw [h2, List.take_left]
rw [unpad]
simp only [hlast, Option.getD_some]
rw [if_pos ⟨hk1, hk16, by omega, hdrop⟩, htake]

/-! ### decryptPassword-level helpers -/

/-- A wrong-length IV (e.g. a truncated nonce) always makes decryption
fail. -/
lemma decryptPassword_bad_iv (bc : BlockCipher) (e iv : List Char)
    (h : (hexDecode iv).length ≠ 16) : decryptPassword bc e iv = none := by
rw [decryptPassword, if_pos h]

/-- Ciphertext that is empty or not block-aligned always makes decryption
fail (given any IV). -/
lemma decryptPassword_bad_ct (bc : BlockCipher) (e iv : List Char)
    (h : (hexDecode e).length = 0 ∨ (hexDecode e).length % 16 ≠ 0) :
    decryptPassword bc e iv = none := by
rw [decryptPassword]
by_cases hiv : (hexDecode iv).length ≠ 16
· rw [if_pos hiv]
· rw [if_neg hiv, if_pos h]

/-- Well-formed decryption unfolds to CBC-decrypt-then-unpad. -/
lemma decryptPassword_ok (bc : BlockCipher) (e iv : List Char)
    (hiv : (hexDecode iv).length = 16)
    (hct : (hexDecode e).length ≠ 0) (hmod : (hexDecode e).length % 16 = 0) :
    decryptPassword bc e iv = unpad (cbcDecrypt bc (hexDecode iv) (hexDecode e)) := by
rw [decryptPassword, if_neg (by omega)]
rw [if_neg (by push_neg; exact ⟨hct, hmod⟩)]

/-- The seal/open round trip of src/cryptoUtils.js: decrypting what
`encryptPassword` produced, with the IV it produced, recovers the
plaintext. -/
lemma decrypt_encrypt (bc : BlockCipher) (ivBytes p : List Nat)
    (hiv : ivBytes.length = 16) (hivlt : ∀ x ∈ ivBytes, x < 256)
    (hp : ∀ x ∈ p, x < 256) :
    decryptPassword bc (encryptPassword bc ivBytes p).encryptedPassword
      (encryptPassword bc ivBytes p).iv = some p := by
have hivhex : hexDecode (hexEncode ivBytes) = ivBytes := hexDecode_hexEncode _ hivlt
have hcthex : hexDecode (hexEncode (cbcEncrypt bc ivBytes (pad p)))
    = cbcEncrypt bc ivBytes (pad p) :=
  hexDecode_hexEncode _ (cbcEncrypt_lt bc ivBytes (pad p))
have hctlen : (cbcEncrypt bc ivBytes (pad p)).length = (pad p).length :=
  cbcEncrypt_length bc ivBytes (pad p) hiv (pad_mod p)
have hpadpos : 0 < (pad p).length := by
  rw [pad_length]
  have := padLen_pos p.length
  omega
rw [encryptPassword]
rw [decryptPassword_ok]
· rw [hivhex, hcthex]
  rw [cbcDecrypt_cbcEncrypt bc ivBytes (pad p) hiv hivlt (pad_mod p) (pad_lt p hp)]
  exact unpad_pad p
· rw [hivhex, hiv]
· rw [hcthex, hctlen]; omega
· rw [hcthex, hctlen]; exact pad_mod p

/-! ### Tampering analysis helpers -/

lemma cbcEncBlocks_blockCount (E : List Nat → List Nat) :
    ∀ (bs : List (List Nat)) (prev : List Nat),
    (cbcEncBlocks E prev bs).length = bs.length := by
intro bs
induction bs with
| nil => intro prev; rfl
| cons b rest ih => intro prev; simp [cbcEncBlocks, ih]

lemma pad_getLast (p : List Nat) : (pad p).getLast? = some (padLen p.length) := by
set k := padLen p.length with hk
have hk1 : 1 ≤ k := padLen_pos p.length
obtain ⟨m, hm⟩ : ∃ m, k = m + 1 := ⟨k - 1, by omega⟩
have hsplit : pad p = (p ++ List.replicate (k - 1) k) ++ [k] := by
  rw [pad, ← hk, List.append_assoc, hm]
  congr 1
  simp only [Nat.add_sub_cancel]
  exact List.replicate_succ' m (m + 1)
rw [hsplit]
exact List.getLast?_concat _

lemma pad_drop (p : List Nat) :
    (pad p).drop p.length = List.replicate (padLen p.length) (padLen p.length) := by
rw [pad]
exact List.drop_left p _

lemma getLast?_drop {l : List Nat} {n : Nat} (h : n < l.length) :
    (l.drop n).getLast? = l.getLast? := by
conv_rhs => rw [← List.take_append_drop n l]
rw [List.getLast?_append]
have hne : l.drop n ≠ [] := by
  intro hc
  have := List.length_drop n l
  rw [hc] at this
  simp at this
  omega
obtain ⟨y, ys, hy⟩ := List.exists_cons_of_ne_nil hne
rw [hy]
cases hlast : (y :: ys).getLast? with
| none => simp [List.getLast?] at hlast
| some a => rfl

lemma flipFirstByte_length (l : List Nat) : (flipFirstByte l).length = l.length := by
cases l <;> rfl

lemma flipFirstByte_lt (l : List Nat) (h : ∀ x ∈ l, x < 256) :
    ∀ x ∈ flipFirstByte l, x < 256 := by
cases l with
| nil => intro x hx; simp [flipFirstByte] at hx
| cons y ys =>
  intro x hx
  simp only [flipFirstByte, List.mem_cons] at hx
  rcases hx with h1 | h1
  · subst h1
    have hy : y < 256 := h y (by simp)
    have h8 : (256 : Nat) = 2 ^ 8 := by norm_num
    rw [h8] at hy ⊢
    exact Nat.xor_lt_two_pow hy (by norm_num)
  · exact h x (by simp [h1])

lemma flipFirstByte_append (l l2 : List Nat) (h : l ≠ []) :
    flipFirstByte (l ++ l2) = flipFirstByte l ++ l2 := by
cases l with
| nil => exact absurd rfl h
| cons y ys => rfl

/-- Tampering with the first ciphertext byte of a 3-or-more-block
envelope is NOT detected: decryption still succeeds (the final padding
block is untouched) and returns a byte string of the original plaintext
length. -/
lemma decrypt_tampered (bc : BlockCipher) (iv p : List Nat)
    (hiv : iv.length = 16) (hivlt : ∀ x ∈ iv, x < 256)
    (hplt : ∀ x ∈ p, x < 256) (hlen : 33 ≤ p.length) :
    ∃ q, decryptPassword bc
        (hexEncode (flipFirstByte (cbcEncrypt bc iv (pad p))))
        (hexEncode iv) = some q ∧ q.length = p.length := by
set k := padLen p.length with hkdef
have hk1 : 1 ≤ k := padLen_pos p.length
have hk16 : k ≤ 16 := padLen_le p.length
set L := (pad p).length with hLdef
have hLval : L = p.length + k := pad_length p
have hLmod : L % 16 = 0 := pad_mod p
have hL48 : 48 ≤ L := by omega
have hpadlt : ∀ x ∈ pad p, x < 256 := pad_lt p hplt
-- plaintext blocks
have hbs16 : ∀ b ∈ chunks (pad p), b.length = 16 := chunksAux_length16 _ _ hLmod
have hbsflat : (chunks (pad p)).flatten = pad p := chunks_flatten _
have hL16 : L = 16 * (chunks (pad p)).length := by
  have h := flatten_blocks_length _ hbs16
  rw [hbsflat] at h
  rw [hLdef, h]
have hbslen : 3 ≤ (chunks (pad p)).length := by omega
obtain ⟨b0, t0, h0⟩ := List.exists_cons_of_ne_nil
  (show chunks (pad p) ≠ [] by intro h; rw [h] at hbslen; simp at hbslen)
obtain ⟨b1, bs2, h1⟩ := List.exists_cons_of_ne_nil
  (show t0 ≠ [] by intro h; rw [h0, h] at hbslen; simp at hbslen)
have hchunks : chunks (pad p) = b0 :: b1 :: bs2 := by rw [h0, h1]
have hb0 : b0.length = 16 := hbs16 b0 (by rw [hchunks]; simp)
have hb1 : b1.length = 16 := hbs16 b1 (by rw [hchunks]; simp)
have hbs2len : ∀ b ∈ bs2, b.length = 16 := fun b hb =>
  hbs16 b (by rw [hchunks]; simp [hb])
have hbs2lt : ∀ b ∈ bs2, ∀ x ∈ b, x < 256 := by
  intro b hb x hx
  apply hpadlt
  have hmem : b ∈ chunks (pad p) := by rw [hchunks]; simp [hb]
  exact chunksAux_subset _ _ b hmem x hx
have hblen2 : L = 16 * (bs2.length + 2) := by
  have hc : (chunks (pad p)).length = bs2.length + 2 := by rw [hchunks]; simp
  rw [hL16, hc]
-- ciphertext blocks
set c0 := bc.enc (xorBytes b0 iv) with hc0def
set c1 := bc.enc (xorBytes b1 c0) with hc1def
set encTail := cbcEncBlocks bc.enc c1 bs2 with hencTaildef
have hx0len : (xorBytes b0 iv).length = 16 := by
  rw [xorBytes_length, hb0, hiv]; exact Nat.min_self 16
have hc0len : c0.length = 16 := bc.enc_len _ hx0len
have hc0lt : ∀ x ∈ c0, x < 256 := bc.enc_lt _
have hx1len : (xorBytes b1 c0).length = 16 := by
  rw [xorBytes_length, hb1, hc0len]; exact Nat.min_self 16
have hc1len : c1.length = 16 := bc.enc_len _ hx1len
have hc1lt : ∀ x ∈ c1, x < 256 := bc.enc_lt _
have hencTail16 : ∀ c ∈ encTail, c.length = 16 :=
  cbcEncBlocks_length16 bc bs2 c1 hc1len hbs2len
have hencTaillt : ∀ c ∈ encTail, ∀ x ∈ c, x < 256 := cbcEncBlocks_lt bc bs2 c1
have hct : cbcEncrypt bc iv (pad p) = c0 ++ (c1 ++ encTail.flatten) := by
  rw [cbcEncrypt, hchunks]
  rfl
-- the tampered ciphertext and its blocks
set c0f := flipFirstByte c0 with hc0fdef
have hc0fne : c0 ≠ [] := by
  intro h; rw [h] at hc0len; simp at hc0len
have hflip : flipFirstByte (cbcEncrypt bc iv (pad p)) = c0f ++ (c1 ++ encTail.flatten) := by
  rw [hct, flipFirstByte_append _ _ hc0fne]
have hc0flen : c0f.length = 16 := by rw [hc0fdef, flipFirstByte_length, hc0len]
have hc0flt : ∀ x ∈ c0f, x < 256 := flipFirstByte_lt c0 hc0lt
have hFblocks : ∀ b ∈ (c0f :: c1 :: encTail), b.length = 16 := by
  intro b hb
  rcases List.mem_cons.mp hb with h | h
  · subst h; exact hc0flen
  rcases List.mem_cons.mp h with h2 | h2
  · subst h2; exact hc1len
  · exact hencTail16 b h2
have hFflat : (c0f :: c1 :: encTail).flatten = c0f ++ (c1 ++ encTail.flatten) := by
  simp [List.flatten_cons]
have hFchunks : chunks (c0f ++ (c1 ++ encTail.flatten)) = c0f :: c1 :: encTail := by
  rw [← hFflat]
  exact chunks_flatten_blocks _ hFblocks
have hFlt : ∀ x ∈ c0f ++ (c1 ++ encTail.flatten), x < 256 := by
  intro x hx
  rcases List.mem_append.mp hx with h | h
  · exact hc0flt x h
  rcases List.mem_append.mp h with h2 | h2
  · exact hc1lt x h2
  · rw [List.mem_flatten] at h2
    obtain ⟨c, hc, hxc⟩ := h2
    exact hencTaillt c hc x hxc
have hencTailflatlen : encTail.flatten.length = 16 * bs2.length := by
  rw [flatten_blocks_length _ hencTail16, hencTaildef, cbcEncBlocks_blockCount]
have hFlen : (c0f ++ (c1 ++ encTail.flatten)).length = L := by
  simp only [List.length_append]
  rw [hc0flen, hc1len, hencTailflatlen]
  omega
-- decryption of the tampered ciphertext
have hhexF : hexDecode (hexEncode (c0f ++ (c1 ++ encTail.flatten))) =
    c0f ++ (c1 ++ encTail.flatten) := hexDecode_hexEncode _ hFlt
have hhexiv : hexDecode (hexEncode iv) = iv := hexDecode_hexEncode _ hivlt
set g0 := xorBytes (bc.dec c0f) iv with hg0def
set g1 := xorBytes (bc.dec c1) c0f with hg1def
have hg0len : g0.length = 16 := by
  rw [hg0def, xorBytes_length, bc.dec_len _ hc0flen, hiv]; exact Nat.min_self 16
have hg1len : g1.length = 16 := by
  rw [hg1def, xorBytes_length, bc.dec_len _ hc1len, hc0flen]; exact Nat.min_self 16
have hdecTail : cbcDecBlocks bc.dec c1 encTail = bs2 :=
  cbcDecBlocks_encBlocks bc bs2 c1 hc1len hc1lt
    (fun b hb => ⟨hbs2len b hb, hbs2lt b hb⟩)
have hdecrypt : cbcDecrypt bc iv (c0f ++ (c1 ++ encTail.flatten)) =
    g0 ++ (g1 ++ bs2.flatten) := by
  rw [cbcDecrypt, hFchunks]
  have : cbcDecBlocks bc.dec iv (c0f :: c1 :: encTail) =
      g0 :: g1 :: cbcDecBlocks bc.dec c1 encTail := rfl
  rw [this, hdecTail]
  simp [List.flatten_cons]
-- the plaintext tail is intact
have hpadsplit : pad p = b0 ++ (b1 ++ bs2.flatten) := by
  conv_lhs => rw [← hbsflat]
  rw [hchunks]
  simp [List.flatten_cons]
have hbs2flat : bs2.flatten = (pad p).drop 32 := by
  rw [hpadsplit]
  have h32 : (32 : Nat) = b0.length + 16 := by omega
  rw [h32, List.drop_append]
  have h16 : (16 : Nat) = b1.length + 0 := by omega
  rw [h16, List.drop_append]
  simp
have hbs2flatlen : bs2.flatten.length = L - 32 := by
  rw [hbs2flat, List.length_drop]
set R := g0 ++ (g1 ++ bs2.flatten) with hRdef
have hRlen : R.length = L := by
  simp only [hRdef, List.length_append]
  rw [hg0len, hg1len, hbs2flatlen]
  omega
-- unpadding the tampered decryption succeeds
have hRlast : R.getLast? = some k := by
  rw [hRdef, List.getLast?_append, List.getLast?_append]
  have hbs2ne : bs2.flatten.getLast? = some k := by
    rw [hbs2flat, getLast?_drop (by omega), pad_getLast, hkdef]
  rw [hbs2ne]
  rfl
have hRdrop : R.drop (R.length - k) = List.replicate k k := by
  rw [hRlen]
  have hLk : L - k = p.length := by omega
  rw [hLk, hRdef]
  have hplen1 : p.length = g0.length + (p.length - 16) := by omega
  rw [hplen1, List.drop_append]
  have hplen2 : p.length - 16 = g1.length + (p.length - 32) := by omega
  rw [hplen2, List.drop_append]
  rw [hbs2flat, List.drop_drop]
  have hplen3 : 32 + (p.length - 32) = p.length := by omega
  rw [hplen3, pad_drop, hkdef]
have hunpad : unpad R = some (R.take (R.length - k)) := by
  rw [unpad]
  simp only [hRlast, Option.getD_some]
  rw [if_pos ⟨hk1, hk16, by omega, hRdrop⟩]
refine ⟨R.take (R.length - k), ?_, ?_⟩
· rw [decryptPassword_ok bc _ _ (by rw [hhexiv, hiv]) (by rw [hflip, hhexF, hFlen]; omega)
    (by rw [hflip, hhexF, hFlen]; omega)]
  rw [hflip, hhexF, hhexiv, hdecrypt, hunpad]
· rw [List.length_take, hRlen]
  omega

/-! ### Store-level helpers -/

lemma find?_none_iff_count_zero (q : Record → Bool) (l : List Record) :
    l.find? q = none ↔ (l.filter q).length = 0 := by
rw [List.find?_eq_none, List.length_eq_zero, List.filter_eq_nil_iff]

lemma count_append_one (q : Record → Bool) (l : List Record) (r : Record)
    (hr : q r = true) :
    ((l ++ [r]).filter q).length = (l.filter q).length + 1 := by
rw [List.filter_append]
simp [List.filter_cons, hr]

lemma count_updateFirst (q : Record → Bool) (f : Record → Record)
    (hf : ∀ r, q (f r) = q r) : ∀ l : List Record,
    ((updateFirst q f l).filter q).length = (l.filter q).length := by
intro l
induction l with
| nil => rfl
| cons r rs ih =>
  by_cases h : q r = true
  · simp [updateFirst, h, List.filter_cons, hf]
  · simp only [updateFirst, h]
    simp only [Bool.not_eq_true] at h
    simp [List.filter_cons, h, ih]

lemma find?_updateFirst (q : Record → Bool) (f : Record → Record)
    (hf : ∀ r, q (f r) = q r) : ∀ l : List Record,
    (updateFirst q f l).find? q = (l.find? q).map f := by
intro l
induction l with
| nil => rfl
| cons r rs ih =>
  by_cases h : q r = true
  · simp [updateFirst, h, List.find?_cons, hf]
  · simp only [updateFirst, h]
    simp only [Bool.not_eq_true] at h
    simp [List.find?_cons, h, ih]

lemma count_eraseP (q : Record → Bool) : ∀ (l : List Record) (a : Record),
    l.find? q = some a →
    ((l.eraseP q).filter q).length + 1 = (l.filter q).length := by
intro l
induction l with
| nil => intro a ha; simp at ha
| cons r rs ih =>
  intro a ha
  by_cases h : q r = true
  · simp [List.eraseP_cons, h, List.filter_cons]
  · simp only [List.find?_cons] at ha
    rw [List.eraseP_cons]
    simp only [Bool.not_eq_true] at h
    rw [h] at ha
    simp only [h, cond_false]
    simp [List.filter_cons, h]
    exact ih a ha

lemma find?_some_of_count_pos (q : Record → Bool) (l : List Record)
    (h : 0 < (l.filter q).length) : ∃ a, l.find? q = some a := by
rcases hfind : l.find? q with _ | a
· rw [find?_none_iff_count_zero] at hfind
  omega
· exact ⟨a, rfl⟩

/-- The update written by `storePassword` does not change the identity
key of a record. -/
lemma matchKey_update (service username user : String) (e : Encrypted) (r : Record) :
    matchKey service username user
      { r with encryptedPassword := e.encryptedPassword, iv := e.iv } =
    matchKey service username user r := rfl

/-- A freshly built record matches its own identity key. -/
lemma matchKey_newRec (service username user : String) (ep ivh : List Char) :
    matchKey service username user
      { service := service, username := username, user := user,
        encryptedPassword := ep, iv := ivh } = true := by
simp [matchKey]

/-! ### generatePassword helpers -/

lemma passwordChars_length : passwordChars.length = 76 := by decide

lemma generatePassword_length (rng : Nat → Fin 76) (n : Nat) :
    (generatePassword rng n).length = n := by
simp [generatePassword]

lemma generatePassword_mem_alphabet (rng : Nat → Fin 76) (n : Nat) :
    ∀ x ∈ generatePassword rng n, x ∈ passwordChars.map Char.toNat := by
intro x hx
simp only [generatePassword, List.mem_map, List.mem_range] at hx
obtain ⟨i, _, rfl⟩ := hx
have hlt : (rng i : Nat) < passwordChars.length := by
  rw [passwordChars_length]; exact (rng i).isLt
rw [List.getD_eq_getElem passwordChars ' ' hlt]
exact List.mem_map_of_mem Char.toNat (List.getElem_mem hlt)

lemma alphabet_lt : ∀ x ∈ passwordChars.map Char.toNat, x < 256 := by
decide

lemma generatePassword_lt (rng : Nat → Fin 76) (n : Nat) :
    ∀ x ∈ generatePassword rng n, x < 256 :=
fun x hx => alphabet_lt x (generatePassword_mem_alphabet rng n x hx)

lemma generatePassword_ne_nil (rng : Nat → Fin 76) :
    generatePassword rng 12 ≠ [] := by
intro h
have := generatePassword_length rng 12
rw [h] at this
simp at this

/-! ### storePassword / deletePassword behavior -/

lemma effPassword_none (rng : Nat → Fin 76) :
    effPassword rng none = generatePassword rng 12 := rfl

lemma effPassword_some (rng : Nat → Fin 76) (p : List Nat) (h : p ≠ []) :
    effPassword rng (some p) = p := by
rw [effPassword, isFalsy]
simp [h]

lemma effPassword_empty (rng : Nat → Fin 76) :
    effPassword rng (some []) = generatePassword rng 12 := rfl

/-- `storePassword`, insert branch. -/
lemma storePassword_insert (bc : BlockCipher) (rng : Nat → Fin 76)
    (ivBytes : List Nat) (service username : String)
    (password : Option (List Nat)) (user : String) (store : List Record)
    (h : store.find? (matchKey service username user) = none) :
    storePassword bc rng ivBytes service username password user store =
      { newStore := store ++
          [{ service := service, username := username, user := user,
             encryptedPassword := (encryptPassword bc ivBytes
               (effPassword rng password)).encryptedPassword,
             iv := (encryptPassword bc ivBytes (effPassword rng password)).iv }]
        logs := (if isFalsy password then
            [LogEntry.generated (effPassword rng password)] else []) ++
          [LogEntry.saved service username]
        ret := () } := by
rw [storePassword]
simp only [h]

/-- `storePassword`, update branch. -/
lemma storePassword_update (bc : BlockCipher) (rng : Nat → Fin 76)
    (ivBytes : List Nat) (service username : String)
    (password : Option (List Nat)) (user : String) (store : List Record)
    (a : Record) (h : store.find? (matchKey service username user) = some a) :
    storePassword bc rng ivBytes service username password user store =
      { newStore := updateFirst (matchKey service username user)
          (fun r => { r with
            encryptedPassword := (encryptPassword bc ivBytes
              (effPassword rng password)).encryptedPassword,
            iv := (encryptPassword bc ivBytes (effPassword rng password)).iv })
          store
        logs := (if isFalsy password then
            [LogEntry.generated (effPassword rng password)] else []) ++
          [LogEntry.updated service username]
        ret := () } := by
rw [storePassword]
simp only [h]

/-- After any `storePassword`, the first record found under the identity
key holds the envelope of the effective (possibly generated) secret. -/
lemma storePassword_stores (bc : BlockCipher) (rng : Nat → Fin 76)
    (ivBytes : List Nat) (service username : String)
    (password : Option (List Nat)) (user : String) (store : List Record) :
    ∃ r, (storePassword bc rng ivBytes service username password user
        store).newStore.find? (matchKey service username user) = some r ∧
      r.encryptedPassword = (encryptPassword bc ivBytes
        (effPassword rng password)).encryptedPassword ∧
      r.iv = (encryptPassword bc ivBytes (effPassword rng password)).iv := by
set e := encryptPassword bc ivBytes (effPassword rng password) with he
rcases hfind : store.find? (matchKey service username user) with _ | a
· rw [storePassword_insert bc rng ivBytes service username password user store hfind]
  refine ⟨{ service := service
            username := username
            user := user
            encryptedPassword := e.encryptedPassword
            iv := e.iv }, ?_, rfl, rfl⟩
  rw [List.find?_append, hfind, Option.none_or, List.find?_cons,
    matchKey_newRec]
· rw [storePassword_update bc rng ivBytes service username password user store a hfind]
  refine ⟨{ a with encryptedPassword := e.encryptedPassword, iv := e.iv },
    ?_, rfl, rfl⟩
  rw [find?_updateFirst _ _ (fun r => matchKey_update service username user _ r),
    hfind, Option.map_some']

/-- `storePassword` keeps exactly one record under the identity key when
the store satisfies the uniqueness invariant enforced by the schema's
unique index. -/
lemma storePassword_count (bc : BlockCipher) (rng : Nat → Fin 76)
    (ivBytes : List Nat) (service username : String)
    (password : Option (List Nat)) (user : String) (store : List Record)
    (huniq : keyCount service username user store ≤ 1) :
    keyCount service username user
      (storePassword bc rng ivBytes service username password user
        store).newStore = 1 := by
rcases hfind : store.find? (matchKey service username user) with _ | a
· rw [storePassword_insert bc rng ivBytes service username password user store hfind]
  have h0 : keyCount service username user store = 0 :=
    (find?_none_iff_count_zero _ _).mp hfind
  rw [keyCount] at h0 ⊢
  rw [count_append_one _ _ _ (matchKey_newRec service username user _ _), h0]
· rw [storePassword_update bc rng ivBytes service username password user store a hfind]
  have h1 : keyCount service username user store ≠ 0 := by
    intro h0
    rw [keyCount] at h0
    rw [← find?_none_iff_count_zero] at h0
    rw [hfind] at h0
    exact Option.noConfusion h0
  rw [keyCount] at h1 huniq ⊢
  rw [count_updateFirst _ _ (fun r => matchKey_update service username user _ r)]
  omega

/-- `deletePassword`, absent branch. -/
lemma deletePassword_absent (service username user : String)
    (store : List Record)
    (h : store.find? (matchKey service username user) = none) :
    deletePassword service username user store =
      { newStore := store, log := .notFound, ret := () } := by
rw [deletePassword]
simp only [h]

/-- `deletePassword`, present branch. -/
lemma deletePassword_present (service username user : String)
    (store : List Record) (a : Record)
    (h : store.find? (matchKey service username user) = some a) :
    deletePassword service username user store =
      { newStore := store.eraseP (matchKey service username user)
        log := .deleted service
        ret := () } := by
rw [deletePassword]
simp only [h]

/-! ## Claim theorems -/

/-- C1: for every plaintext byte sequence `p` (any length, so in
particular up to 1024 bytes), decrypting the result of `encryptPassword p`
with the IV produced by that same call recovers `p` exactly. -/
theorem c1_seal_open_roundtrip (bc : BlockCipher) (p ivBytes : List Nat)
    (hiv : ivBytes.length = 16) (hivlt : ∀ x ∈ ivBytes, x < 256)
    (hp : ∀ x ∈ p, x < 256) :
    decryptPassword bc (encryptPassword bc ivBytes p).encryptedPassword
      (encryptPassword bc ivBytes p).iv = some p :=
decrypt_encrypt bc ivBytes p hiv hivlt hp

/-- Witness for C1 at a concrete plaintext and IV. -/
theorem c1_seal_open_roundtrip_witness :
    (ivW.length = 16 ∧ (∀ x ∈ ivW, x < 256) ∧
      (∀ x ∈ [104, 117, 110, 116, 101, 114, 50], x < 256)) ∧
    decryptPassword xorNotCipher
      (encryptPassword xorNotCipher ivW [104, 117, 110, 116, 101, 114, 50]).encryptedPassword
      (encryptPassword xorNotCipher ivW [104, 117, 110, 116, 101, 114, 50]).iv =
      some [104, 117, 110, 116, 101, 114, 50] :=
⟨⟨by decide, by decide, by decide⟩,
 c1_seal_open_roundtrip xorNotCipher [104, 117, 110, 116, 101, 114, 50] ivW
   (by decide) (by decide) (by decide)⟩

/-- C10: `decryptPassword` is total on arbitrary string inputs — it
returns either a plaintext or `null`, never raising: in particular a
wrong-length (or non-hex, hence short-decoding) IV yields `null`, and
ciphertext whose decoded length is not a positive multiple of the block
size yields `null`. -/
theorem c10_decrypt_total (bc : BlockCipher) (e iv : List Char) :
    (decryptPassword bc e iv = none ∨ ∃ p, decryptPassword bc e iv = some p) ∧
    ((hexDecode iv).length ≠ 16 → decryptPassword bc e iv = none) ∧
    ((hexDecode e).length % 16 ≠ 0 → decryptPassword bc e iv = none) ∧
    ((hexDecode e).length = 0 → decryptPassword bc e iv = none) := by
refine ⟨?_, fun h => decryptPassword_bad_iv bc e iv h,
  fun h => decryptPassword_bad_ct bc e iv (Or.inr h),
  fun h => decryptPassword_bad_ct bc e iv (Or.inl h)⟩
rcases h : decryptPassword bc e iv with _ | p
· exact Or.inl rfl
· exact Or.inr ⟨p, rfl⟩

/-- Witness for C10: a non-hex IV string and a non-block-aligned
ciphertext both give `null`. -/
theorem c10_decrypt_total_witness :
    ((hexDecode ['z', 'z']).length ≠ 16 ∧
      decryptPassword xorNotCipher [] ['z', 'z'] = none) ∧
    ((hexDecode ['a', 'b', 'c', 'd']).length % 16 ≠ 0 ∧
      decryptPassword xorNotCipher ['a', 'b', 'c', 'd'] (hexEncode ivW) = none) :=
⟨⟨by decide, (c10_decrypt_total xorNotCipher [] ['z', 'z']).2.1 (by decide)⟩,
 ⟨by decide,
  (c10_decrypt_total xorNotCipher ['a', 'b', 'c', 'd'] (hexEncode ivW)).2.2.1
    (by decide)⟩⟩

/-- C9: a `put` whose supplied secret is the empty string behaves exactly
like an absent secret — a fresh 12-character password is generated and
stored, and the empty string itself is never sealed (the sealed secret is
the nonempty generated one). -/
theorem c9_empty_secret_generates (bc : BlockCipher) (rng : Nat → Fin 76)
    (ivBytes : List Nat) (service username user : String) (store : List Record)
    (hiv : ivBytes.length = 16) (hivlt : ∀ x ∈ ivBytes, x < 256) :
    storePassword bc rng ivBytes service username (some []) user store =
      storePassword bc rng ivBytes service username none user store ∧
    generatePassword rng 12 ≠ [] ∧
    ∃ r, (storePassword bc rng ivBytes service username (some []) user
        store).newStore.find? (matchKey service username user) = some r ∧
      decryptPassword bc r.encryptedPassword r.iv =
        some (generatePassword rng 12) := by
refine ⟨rfl, generatePassword_ne_nil rng, ?_⟩
obtain ⟨r, hr, he, hi⟩ :=
  storePassword_stores bc rng ivBytes service username (some []) user store
refine ⟨r, hr, ?_⟩
rw [he, hi, effPassword_empty]
exact decrypt_encrypt bc ivBytes _ hiv hivlt (generatePassword_lt rng 12)

/-- Witness for C9 at concrete inputs. -/
theorem c9_empty_secret_generates_witness :
    (ivW.length = 16 ∧ (∀ x ∈ ivW, x < 256)) ∧
    (storePassword xorNotCipher rngW ivW svcW acctW (some []) ownerW [] =
      storePassword xorNotCipher rngW ivW svcW acctW none ownerW [] ∧
    generatePassword rngW 12 ≠ [] ∧
    ∃ r, (storePassword xorNotCipher rngW ivW svcW acctW (some []) ownerW
        []).newStore.find? (matchKey svcW acctW ownerW) = some r ∧
      decryptPassword xorNotCipher r.encryptedPassword r.iv =
        some (generatePassword rngW 12)) :=
⟨⟨by decide, by decide⟩,
 c9_empty_secret_generates xorNotCipher rngW ivW svcW acctW ownerW []
   (by decide) (by decide)⟩

/-- C7: with the secret absent, the stored secret is the freshly
generated string of exactly 12 characters, each drawn from the fixed
76-character alphabet, and the stored record's envelope decrypts to
exactly that generated value. -/
theorem c7_generated_secret_stored (bc : BlockCipher) (rng : Nat → Fin 76)
    (ivBytes : List Nat) (service username user : String) (store : List Record)
    (hiv : ivBytes.length = 16) (hivlt : ∀ x ∈ ivBytes, x < 256) :
    (generatePassword rng 12).length = 12 ∧
    passwordChars.length = 76 ∧
    (∀ x ∈ generatePassword rng 12, x ∈ passwordChars.map Char.toNat) ∧
    ∃ r, (storePassword bc rng ivBytes service username none user
        store).newStore.find? (matchKey service username user) = some r ∧
      decryptPassword bc r.encryptedPassword r.iv =
        some (generatePassword rng 12) := by
refine ⟨generatePassword_length rng 12, passwordChars_length,
  generatePassword_mem_alphabet rng 12, ?_⟩
obtain ⟨r, hr, he, hi⟩ :=
  storePassword_stores bc rng ivBytes service username none user store
refine ⟨r, hr, ?_⟩
rw [he, hi, effPassword_none]
exact decrypt_encrypt bc ivBytes _ hiv hivlt (generatePassword_lt rng 12)

/-- Witness for C7 at concrete inputs. -/
theorem c7_generated_secret_stored_witness :
    (ivW.length = 16 ∧ (∀ x ∈ ivW, x < 256)) ∧
    ((generatePassword rngW 12).length = 12 ∧
    passwordChars.length = 76 ∧
    (∀ x ∈ generatePassword rngW 12, x ∈ passwordChars.map Char.toNat) ∧
    ∃ r, (storePassword xorNotCipher rngW ivW svcW acctW none ownerW
        []).newStore.find? (matchKey svcW acctW ownerW) = some r ∧
      decryptPassword xorNotCipher r.encryptedPassword r.iv =
        some (generatePassword rngW 12)) :=
⟨⟨by decide, by decide⟩,
 c7_generated_secret_stored xorNotCipher rngW ivW svcW acctW ownerW []
   (by decide) (by decide)⟩

/-- C3: starting from any store satisfying the schema's unique-index
invariant (at most one record per identity key), two successive `put`
calls with the same identity key and different nonempty secrets leave
exactly one record under that key, and that record's envelope decrypts to
the second secret. -/
theorem c3_second_put_updates_in_place (bc : BlockCipher)
    (rng1 rng2 : Nat → Fin 76) (iv1 iv2 : List Nat)
    (service username user : String) (s1 s2 : List Nat) (store : List Record)
    (huniq : keyCount service username user store ≤ 1)
    (hs1 : s1 ≠ []) (hs2 : s2 ≠ []) (hneq : s1 ≠ s2)
    (hiv2 : iv2.length = 16) (hiv2lt : ∀ x ∈ iv2, x < 256)
    (hs2lt : ∀ x ∈ s2, x < 256) :
    keyCount service username user
      (storePassword bc rng2 iv2 service username (some s2) user
        (storePassword bc rng1 iv1 service username (some s1) user
          store).newStore).newStore = 1 ∧
    ∃ r, (storePassword bc rng2 iv2 service username (some s2) user
        (storePassword bc rng1 iv1 service username (some s1) user
          store).newStore).newStore.find? (matchKey service username user) =
        some r ∧
      decryptPassword bc r.encryptedPassword r.iv = some s2 := by
have h1 : keyCount service username user
    (storePassword bc rng1 iv1 service username (some s1) user
      store).newStore = 1 :=
  storePassword_count bc rng1 iv1 service username (some s1) user store huniq
constructor
· exact storePassword_count bc rng2 iv2 service username (some s2) user _
    (by omega)
· obtain ⟨r, hr, he, hi⟩ :=
    storePassword_stores bc rng2 iv2 service username (some s2) user _
  refine ⟨r, hr, ?_⟩
  rw [he, hi, effPassword_some rng2 s2 hs2]
  exact decrypt_encrypt bc iv2 s2 hiv2 hiv2lt hs2lt

/-- Witness for C3 at concrete inputs. -/
theorem c3_second_put_updates_in_place_witness :
    (keyCount svcW acctW ownerW [] ≤ 1 ∧ [65] ≠ ([] : List Nat) ∧
      [66] ≠ ([] : List Nat) ∧ [65] ≠ [66] ∧ ivW.length = 16 ∧
      (∀ x ∈ ivW, x < 256) ∧ (∀ x ∈ [66], x < 256)) ∧
    (keyCount svcW acctW ownerW
      (storePassword xorNotCipher rngW ivW svcW acctW (some [66]) ownerW
        (storePassword xorNotCipher rngW ivW svcW acctW (some [65]) ownerW
          []).newStore).newStore = 1 ∧
    ∃ r, (storePassword xorNotCipher rngW ivW svcW acctW (some [66]) ownerW
        (storePassword xorNotCipher rngW ivW svcW acctW (some [65]) ownerW
          []).newStore).newStore.find? (matchKey svcW acctW ownerW) =
        some r ∧
      decryptPassword xorNotCipher r.encryptedPassword r.iv = some [66]) :=
⟨⟨by decide, by decide, by decide, by decide, by decide, by decide, by decide⟩,
 c3_second_put_updates_in_place xorNotCipher rngW rngW ivW ivW svcW acctW
   ownerW [65] [66] [] (by decide) (by decide) (by decide) (by decide)
   (by decide) (by decide) (by decide)⟩

/-- C2 counterexample: a sealed 17-byte envelope (two ciphertext blocks)
whose first ciphertext byte is flipped still opens successfully — no
`DecryptError` — and yields corrupted plaintext of exactly the original
length. -/
theorem c2_tamper_counterexample :
    decryptPassword xorNotCipher
      (hexEncode (flipFirstByte
        (cbcEncrypt xorNotCipher ivW (pad (List.replicate 17 65)))))
      (hexEncode ivW) ≠ none ∧
    decryptPassword xorNotCipher
      (hexEncode (flipFirstByte
        (cbcEncrypt xorNotCipher ivW (pad (List.replicate 17 65)))))
      (hexEncode ivW) ≠ some (List.replicate 17 65) ∧
    ((decryptPassword xorNotCipher
      (hexEncode (flipFirstByte
        (cbcEncrypt xorNotCipher ivW (pad (List.replicate 17 65)))))
      (hexEncode ivW)).getD []).length = (List.replicate 17 65).length := by
refine ⟨?_, ?_, ?_⟩ <;> decide

/-- C2 as amended: truncating the nonce (any IV string decoding to other
than 16 bytes) does fail with `DecryptError`; but a single-byte
ciphertext flip is not detected in general — for ANY block primitive,
flipping the first ciphertext byte of an envelope of three or more blocks
leaves `open` succeeding with a (corrupted) plaintext of exactly the
original length, because CBC with PKCS#7 padding authenticates nothing
before the final block. -/
theorem c2_tamper_amended (bc : BlockCipher) (ivBytes p : List Nat)
    (e iv : List Char)
    (hiv : ivBytes.length = 16) (hivlt : ∀ x ∈ ivBytes, x < 256)
    (hplt : ∀ x ∈ p, x < 256) (hlen : 33 ≤ p.length) :
    ((hexDecode iv).length ≠ 16 → decryptPassword bc e iv = none) ∧
    ∃ q, decryptPassword bc
        (hexEncode (flipFirstByte (cbcEncrypt bc ivBytes (pad p))))
        (hexEncode ivBytes) = some q ∧ q.length = p.length :=
⟨fun h => decryptPassword_bad_iv bc e iv h,
 decrypt_tampered bc ivBytes p hiv hivlt hplt hlen⟩

/-- Witness for the amended C2 at concrete inputs. -/
theorem c2_tamper_amended_witness :
    (ivW.length = 16 ∧ (∀ x ∈ ivW, x < 256) ∧
      (∀ x ∈ List.replicate 33 65, x < 256) ∧
      33 ≤ (List.replicate 33 65).length ∧
      (hexDecode ['z', 'z']).length ≠ 16) ∧
    decryptPassword xorNotCipher [] ['z', 'z'] = none ∧
    ∃ q, decryptPassword xorNotCipher
        (hexEncode (flipFirstByte
          (cbcEncrypt xorNotCipher ivW (pad (List.replicate 33 65)))))
        (hexEncode ivW) = some q ∧ q.length = (List.replicate 33 65).length :=
⟨⟨by decide, by decide, by decide, by decide, by decide⟩,
 (c2_tamper_amended xorNotCipher ivW (List.replicate 33 65) [] ['z', 'z']
   (by decide) (by decide) (by decide) (by decide)).1 (by decide),
 (c2_tamper_amended xorNotCipher ivW (List.replicate 33 65) [] ['z', 'z']
   (by decide) (by decide) (by decide) (by decide)).2⟩

/-- C4 counterexample: the returned value of `retrievePassword` is the
same `null` for a missing record and for a present record whose envelope
fails to decrypt — the two failures are NOT distinct in the result. -/
theorem c4_notfound_decrypterror_counterexample :
    (retrievePassword xorNotCipher svcW acctW ownerW []).1 = none ∧
    (retrievePassword xorNotCipher svcW acctW ownerW [badRecW]).1 = none ∧
    ([] : List Record).find? (matchKey svcW acctW ownerW) = none ∧
    [badRecW].find? (matchKey svcW acctW ownerW) = some badRecW ∧
    decryptPassword xorNotCipher badRecW.encryptedPassword badRecW.iv = none := by
refine ⟨?_, ?_, ?_, ?_, ?_⟩ <;> decide

/-- C4 as amended: `get` returns `null` when no record exists; otherwise
it opens the stored envelope and returns its decryption — which is itself
`null` on decryption failure, so the return value does not distinguish
`NotFound` from `DecryptError` (only the console log does); reading
changes no state, and after a successful `put` of a nonempty secret, `get`
returns exactly that secret. -/
theorem c4_get_amended (bc : BlockCipher) (service username user : String)
    (store : List Record) :
    (store.find? (matchKey service username user) = none →
      retrievePassword bc service username user store =
        (none, LogEntry.notFound)) ∧
    (∀ r, store.find? (matchKey service username user) = some r →
      retrievePassword bc service username user store =
        (decryptPassword bc r.encryptedPassword r.iv,
         LogEntry.retrieved service
           (decryptPassword bc r.encryptedPassword r.iv))) ∧
    (∀ (rng : Nat → Fin 76) (ivBytes s : List Nat),
      ivBytes.length = 16 → (∀ x ∈ ivBytes, x < 256) →
      (∀ x ∈ s, x < 256) → s ≠ [] →
      (retrievePassword bc service username user
        (storePassword bc rng ivBytes service username (some s) user
          store).newStore).1 = some s) := by
refine ⟨?_, ?_, ?_⟩
· intro h
  rw [retrievePassword]
  simp only [h]
· intro r h
  rw [retrievePassword]
  simp only [h]
· intro rng ivBytes s hiv hivlt hslt hs
  obtain ⟨r, hr, he, hi⟩ :=
    storePassword_stores bc rng ivBytes service username (some s) user store
  rw [retrievePassword]
  simp only [hr]
  rw [he, hi, effPassword_some rng s hs]
  exact decrypt_encrypt bc ivBytes s hiv hivlt hslt

/-- Witness for the amended C4 at concrete inputs. -/
theorem c4_get_amended_witness :
    (([] : List Record).find? (matchKey svcW acctW ownerW) = none ∧
      ivW.length = 16 ∧ (∀ x ∈ ivW, x < 256) ∧
      (∀ x ∈ [66], x < 256) ∧ [66] ≠ ([] : List Nat)) ∧
    retrievePassword xorNotCipher svcW acctW ownerW [] =
      (none, LogEntry.notFound) ∧
    (retrievePassword xorNotCipher svcW acctW ownerW
      (storePassword xorNotCipher rngW ivW svcW acctW (some [66]) ownerW
        []).newStore).1 = some [66] :=
⟨⟨by decide, by decide, by decide, by decide, by decide⟩,
 (c4_get_amended xorNotCipher svcW acctW ownerW []).1 (by decide),
 (c4_get_amended xorNotCipher svcW acctW ownerW []).2.2 rngW ivW [66]
   (by decide) (by decide) (by decide) (by decide)⟩

/-- C5 counterexample: `deletePassword` resolves with the same value
(`undefined`, here `()`) whether or not a record was actually removed, so
it does not return the claimed boolean; the two calls differ only in
state and console output. -/
theorem c5_delete_returns_nothing_counterexample :
    (deletePassword svcW acctW ownerW [badRecW]).ret =
      (deletePassword svcW acctW ownerW []).ret ∧
    (deletePassword svcW acctW ownerW [badRecW]).newStore = [] ∧
    (deletePassword svcW acctW ownerW []).newStore = [] ∧
    (deletePassword svcW acctW ownerW [badRecW]).log ≠
      (deletePassword svcW acctW ownerW []).log := by
refine ⟨?_, ?_, ?_, ?_⟩ <;> decide

/-- C5 as amended: `delete` returns no value; the outcome is reported
only on the console.  Its state semantics are as claimed: deleting an
absent key leaves the store unchanged (logging not-found), and with
exactly one record under the key, two successive deletes first remove it
(logging deleted) and then change nothing (logging not-found). -/
theorem c5_delete_amended (service username user : String)
    (store : List Record) :
    (store.find? (matchKey service username user) = none →
      deletePassword service username user store =
        { newStore := store, log := LogEntry.notFound, ret := () }) ∧
    (keyCount service username user store = 1 →
      (deletePassword service username user store).log =
        LogEntry.deleted service ∧
      keyCount service username user
        (deletePassword service username user store).newStore = 0 ∧
      deletePassword service username user
          (deletePassword service username user store).newStore =
        { newStore := (deletePassword service username user store).newStore,
          log := LogEntry.notFound, ret := () }) := by
constructor
· exact fun h => deletePassword_absent service username user store h
· intro hone
  obtain ⟨a, ha⟩ := find?_some_of_count_pos (matchKey service username user)
    store (by rw [keyCount] at hone; omega)
  rw [deletePassword_present service username user store a ha]
  have hcount : keyCount service username user
      (store.eraseP (matchKey service username user)) = 0 := by
    have := count_eraseP (matchKey service username user) store a ha
    rw [keyCount] at hone ⊢
    omega
  have hnone : (store.eraseP (matchKey service username user)).find?
      (matchKey service username user) = none := by
    rw [find?_none_iff_count_zero]
    rw [keyCount] at hcount
    exact hcount
  exact ⟨rfl, hcount,
    deletePassword_absent service username user _ hnone⟩

/-- Witness for the amended C5 at concrete inputs. -/
theorem c5_delete_amended_witness :
    (([] : List Record).find? (matchKey svcW acctW ownerW) = none ∧
      keyCount svcW acctW ownerW [badRecW] = 1) ∧
    deletePassword svcW acctW ownerW [] =
      { newStore := [], log := LogEntry.notFound, ret := () } ∧
    ((deletePassword svcW acctW ownerW [badRecW]).log =
        LogEntry.deleted svcW ∧
      keyCount svcW acctW ownerW
        (deletePassword svcW acctW ownerW [badRecW]).newStore = 0 ∧
      deletePassword svcW acctW ownerW
          (deletePassword svcW acctW ownerW [badRecW]).newStore =
        { newStore := (deletePassword svcW acctW ownerW [badRecW]).newStore,
          log := LogEntry.notFound, ret := () }) :=
⟨⟨by decide, by decide⟩,
 (c5_delete_amended svcW acctW ownerW []).1 (by decide),
 (c5_delete_amended svcW acctW ownerW [badRecW]).2 (by decide)⟩

/-- C6 counterexample: `storePassword` resolves with the same value
(`undefined`, here `()`) for an insert and for an update with a different
secret, and also when the secret was auto-generated — the returned value
reports neither insert-vs-update nor the stored secret; those appear only
in the console log. -/
theorem c6_put_returns_nothing_counterexample :
    (storePassword xorNotCipher rngW ivW svcW acctW (some [65]) ownerW
      []).ret =
      (storePassword xorNotCipher rngW ivW svcW acctW (some [66]) ownerW
        [badRecW]).ret ∧
    (storePassword xorNotCipher rngW ivW svcW acctW (some [65]) ownerW
      []).logs = [LogEntry.saved svcW acctW] ∧
    (storePassword xorNotCipher rngW ivW svcW acctW (some [66]) ownerW
      [badRecW]).logs = [LogEntry.updated svcW acctW] ∧
    (storePassword xorNotCipher rngW ivW svcW acctW none ownerW []).ret =
      (storePassword xorNotCipher rngW ivW svcW acctW (some [65]) ownerW
        []).ret := by
refine ⟨?_, ?_, ?_, ?_⟩ <;> decide

/-- C6 as amended: `put` resolves with no value; whether the record was
inserted or updated is reported only via the console message (saved vs
updated), and the stored plaintext — in particular the auto-generated
one — is surfaced only via the generated-password console line, whose
logged value is exactly the secret sealed into the stored record. -/
theorem c6_put_result_amended (bc : BlockCipher) (rng : Nat → Fin 76)
    (ivBytes : List Nat) (service username : String)
    (password : Option (List Nat)) (user : String) (store : List Record) :
    (storePassword bc rng ivBytes service username password user store).ret
      = () ∧
    (store.find? (matchKey service username user) = none →
      (storePassword bc rng ivBytes service username password user
        store).logs =
        (if isFalsy password then
          [LogEntry.generated (effPassword rng password)] else []) ++
        [LogEntry.saved service username]) ∧
    (∀ a, store.find? (matchKey service username user) = some a →
      (storePassword bc rng ivBytes service username password user
        store).logs =
        (if isFalsy password then
          [LogEntry.generated (effPassword rng password)] else []) ++
        [LogEntry.updated service username]) ∧
    (isFalsy password = true →
      LogEntry.generated (effPassword rng password) ∈
        (storePassword bc rng ivBytes service username password user
          store).logs ∧
      ∃ r, (storePassword bc rng ivBytes service username password user
          store).newStore.find? (matchKey service username user) = some r ∧
        r.encryptedPassword = (encryptPassword bc ivBytes
          (effPassword rng password)).encryptedPassword) := by
refine ⟨rfl, ?_, ?_, ?_⟩
· intro h
  rw [storePassword_insert bc rng ivBytes service username password user store h]
· intro a h
  rw [storePassword_update bc rng ivBytes service username password user store a h]
· intro hfalsy
  constructor
  · rcases hfind : store.find? (matchKey service username user) with _ | a
    · rw [storePassword_insert bc rng ivBytes service username password user
        store hfind]
      simp [hfalsy]
    · rw [storePassword_update bc rng ivBytes service username password user
        store a hfind]
      simp [hfalsy]
  · obtain ⟨r, hr, he, _⟩ :=
      storePassword_stores bc rng ivBytes service username password user store
    exact ⟨r, hr, he⟩

/-- Witness for the amended C6 at concrete inputs. -/
theorem c6_put_result_amended_witness :
    (([] : List Record).find? (matchKey svcW acctW ownerW) = none ∧
      isFalsy none = true) ∧
    (storePassword xorNotCipher rngW ivW svcW acctW none ownerW []).ret
      = () ∧
    (storePassword xorNotCipher rngW ivW svcW acctW none ownerW []).logs =
      (if isFalsy (none : Option (List Nat)) then
        [LogEntry.generated (effPassword rngW none)] else []) ++
      [LogEntry.saved svcW acctW] ∧
    (LogEntry.generated (effPassword rngW none) ∈
      (storePassword xorNotCipher rngW ivW svcW acctW none ownerW []).logs ∧
    ∃ r, (storePassword xorNotCipher rngW ivW svcW acctW none ownerW
        []).newStore.find? (matchKey svcW acctW ownerW) = some r ∧
      r.encryptedPassword = (encryptPassword xorNotCipher ivW
        (effPassword rngW none)).encryptedPassword) :=
⟨⟨by decide, by decide⟩,
 (c6_put_result_amended xorNotCipher rngW ivW svcW acctW none ownerW []).1,
 (c6_put_result_amended xorNotCipher rngW ivW svcW acctW none ownerW
   []).2.1 (by decide),
 (c6_put_result_amended xorNotCipher rngW ivW svcW acctW none ownerW
   []).2.2.2 (by decide)⟩

/-- C8 counterexample: for an unknown username, `authUser` evaluates
`user && ...` with `user === undefined`, so it returns `undefined`
(falsy), not the boolean `false` the claim states. -/
theorem c8_unknown_user_counterexample :
    authUser (fun s => s) [] (userJ.username) (userJ.password) =
      JsReturn.undef ∧
    JsReturn.undef ≠ JsReturn.bool false := by
exact ⟨rfl, by decide⟩

/-- C8 as amended: `authUser` returns the boolean `true` exactly when an
entry for the username exists whose stored hash equals the hash of the
supplied password (exact equality); when the username exists but the hash
differs it returns the boolean `false`; for an unknown username it
returns `undefined` — a falsy non-boolean — rather than `false`.
(Usernames are assumed unique, as `createUser` enforces.) -/
theorem c8_auth_amended (hash : String → String) (users : List UserEntry)
    (username password : String)
    (huniq : ∀ u1 ∈ users, ∀ u2 ∈ users, u1.username = u2.username → u1 = u2) :
    (authUser hash users username password = JsReturn.bool true ↔
      ∃ u ∈ users, u.username = username ∧ u.password = hash password) ∧
    (authUser hash users username password = JsReturn.undef ↔
      ∀ u ∈ users, u.username ≠ username) := by
rcases hf : users.find? (fun u => u.username == username) with _ | u
· rw [List.find?_eq_none] at hf
  have hall : ∀ u ∈ users, u.username ≠ username := by
    intro u hu
    have := hf u hu
    simpa using this
  constructor
  · rw [authUser]
    rw [List.find?_eq_none.mpr (fun u hu => by simpa using hall u hu)]
    constructor
    · intro h; exact JsReturn.noConfusion h
    · rintro ⟨u, hu, hname, _⟩
      exact absurd hname (hall u hu)
  · rw [authUser]
    rw [List.find?_eq_none.mpr (fun u hu => by simpa using hall u hu)]
    exact ⟨fun _ => hall, fun _ => rfl⟩
· have hmem : u ∈ users := List.mem_of_find?_eq_some hf
  have hname : u.username = username := by
    have := List.find?_some hf
    simpa using this
  have hred : authUser hash users username password
      = JsReturn.bool (u.password == hash password) := by
    rw [authUser, hf]
  constructor
  · rw [hred]
    constructor
    · intro h
      have hb : (u.password == hash password) = true := by
        cases hb2 : u.password == hash password
        · rw [hb2] at h; exact absurd h (by decide)
        · rfl
      exact ⟨u, hmem, hname, by simpa using hb⟩
    · rintro ⟨v, hv, hvname, hvpw⟩
      have hvu : v = u := huniq v hv u hmem (by rw [hvname, hname])
      have hb : (u.password == hash password) = true := by
        rw [← hvu]
        simpa using hvpw
      rw [hb]
  · rw [hred]
    constructor
    · intro h; exact JsReturn.noConfusion h
    · intro h
      exact absurd hname (h u hmem)

/-- Witness for the amended C8 at concrete inputs. -/
theorem c8_auth_amended_witness :
    ((∀ u1 ∈ [userJ], ∀ u2 ∈ [userJ], u1.username = u2.username → u1 = u2) ∧
      ∃ u ∈ [userJ], u.username = userJ.username ∧
        u.password = (fun s => s) userJ.password) ∧
    authUser (fun s => s) [userJ] (userJ.username) (userJ.password) =
      JsReturn.bool true :=
⟨⟨by decide, ⟨userJ, by decide, by decide, by decide⟩⟩,
 (c8_auth_amended (fun s => s) [userJ] (userJ.username) (userJ.password)
   (by decide)).1.mpr ⟨userJ, by decide, by decide, by decide⟩⟩

end PasswordVault
